import Mathlib

/-!
Verification of the dynamic-memory subsystem of the blog-os kernel
(`src/allocator.rs`, `src/allocator/bump.rs`, `src/allocator/linked_list.rs`,
`src/allocator/fixed_size_block.rs`).

The allocators operate on `usize` addresses on an x86_64 target, embedded
here as `Nat` with explicit reduction modulo `2 ^ 64` at the points where
the Rust code performs (checked or wrapping) machine arithmetic.
Pointer-linked structures (the intrusive free list and the per-class block
lists) are embedded as Lean lists of the regions / block addresses they
represent, in list order; allocator methods become state-passing functions
on those lists.
-/

namespace BlogOs

/-- Number of values of the 64-bit `usize` type of the x86_64 target. -/
def USIZE : Nat := 2 ^ 64

/-- `align_up` from `src/allocator.rs`:
`(addr + align - 1) & !(align - 1)` on `usize`.  The bitwise complement
`!(align - 1)` is `(2^64 - 1) - ((align - 1) % 2^64)`, and the sum
`addr + align - 1` is reduced modulo `2^64` (wrapping semantics of the
machine addition). -/
def align_up (addr align : Nat) : Nat :=
  Nat.land ((addr + align - 1) % USIZE) ((USIZE - 1) - (align - 1) % USIZE)

/-- Bitwise `and` with the mask `2^n - 2^k` (bits `k..n-1` set) keeps
exactly the bits `k..n-1` of its argument. -/
theorem land_high_mask (x k n : Nat) (hk : k ≤ n) :
    Nat.land x (2 ^ n - 2 ^ k) = x % 2 ^ n / 2 ^ k * 2 ^ k := by
  have hmask : 2 ^ n - 2 ^ k = 2 ^ k * (2 ^ (n - k) - 1) := by
    rw [Nat.mul_sub_one, ← Nat.pow_add, Nat.add_sub_cancel' hk]
  apply Nat.eq_of_testBit_eq
  intro i
  show (x &&& (2 ^ n - 2 ^ k)).testBit i = _
  rw [Nat.testBit_and, hmask, Nat.testBit_mul_pow_two]
  have hdm : x % 2 ^ n / 2 ^ k * 2 ^ k = 2 ^ k * (x % 2 ^ n / 2 ^ k) := Nat.mul_comm _ _
  rw [hdm, Nat.testBit_mul_pow_two]
  by_cases hik : k ≤ i
  · simp only [ge_iff_le, hik, decide_True, Bool.true_and]
    rw [Nat.testBit_two_pow_sub_one]
    rw [← Nat.shiftRight_eq_div_pow, Nat.testBit_shiftRight]
    have hki : k + (i - k) = i := by omega
    rw [hki, Nat.testBit_mod_two_pow]
    by_cases hin : i < n
    · have h1 : i - k < n - k := by omega
      simp [h1, hin]
    · have h1 : ¬ (i - k < n - k) := by omega
      simp [h1, hin]
  · simp [hik]

/-- Closed form of `align_up` for a power-of-two alignment `2 ^ k`
(`k ≤ 64`), covering the wrapping case as well. -/
theorem align_up_pow2 (addr k : Nat) (hk : k ≤ 64) :
    align_up addr (2 ^ k) =
      (addr + 2 ^ k - 1) % USIZE / 2 ^ k * 2 ^ k := by
  have hk1 : 0 < 2 ^ k := Nat.two_pow_pos k
  have hpow : 2 ^ k ≤ 2 ^ 64 := Nat.pow_le_pow_right (by omega) hk
  show Nat.land ((addr + 2 ^ k - 1) % 2 ^ 64) ((2 ^ 64 - 1) - (2 ^ k - 1) % 2 ^ 64)
      = (addr + 2 ^ k - 1) % 2 ^ 64 / 2 ^ k * 2 ^ k
  have h1 : (2 ^ k - 1) % 2 ^ 64 = 2 ^ k - 1 := Nat.mod_eq_of_lt (by omega)
  have hmask : (2 ^ 64 - 1) - (2 ^ k - 1) % 2 ^ 64 = 2 ^ 64 - 2 ^ k := by
    rw [h1]
    omega
  rw [hmask, land_high_mask _ k 64 hk]
  have hx : (addr + 2 ^ k - 1) % 2 ^ 64 < 2 ^ 64 :=
    Nat.mod_lt _ (Nat.two_pow_pos 64)
  rw [Nat.mod_eq_of_lt hx]

/-- `align_up` with a power-of-two alignment always returns a multiple of
that alignment (even in the wrapping case). -/
theorem align_up_dvd (addr k : Nat) (hk : k ≤ 64) :
    2 ^ k ∣ align_up addr (2 ^ k) := by
  rw [align_up_pow2 addr k hk]
  exact ⟨_, Nat.mul_comm _ _⟩

/-- When the machine addition `addr + align - 1` does not wrap,
`align_up` computes `⌈addr / 2^k⌉ * 2^k`. -/
theorem align_up_eq_of_no_wrap (addr k : Nat) (hk : k ≤ 64)
    (h : addr + 2 ^ k - 1 < USIZE) :
    align_up addr (2 ^ k) = (addr + 2 ^ k - 1) / 2 ^ k * 2 ^ k := by
  rw [align_up_pow2 addr k hk, Nat.mod_eq_of_lt h]

/-- Without wrapping, the result of `align_up` is at least `addr`. -/
theorem align_up_ge (addr k : Nat) (hk : k ≤ 64)
    (h : addr + 2 ^ k - 1 < USIZE) :
    addr ≤ align_up addr (2 ^ k) := by
  rw [align_up_eq_of_no_wrap addr k hk h]
  have h1 : (0 : Nat) < 2 ^ k := Nat.two_pow_pos k
  have h2 := Nat.lt_div_mul_add (a := addr + 2 ^ k - 1) h1
  omega

/-- Without wrapping, the result of `align_up` is below `addr + 2^k`. -/
theorem align_up_lt (addr k : Nat) (hk : k ≤ 64)
    (h : addr + 2 ^ k - 1 < USIZE) :
    align_up addr (2 ^ k) < addr + 2 ^ k := by
  rw [align_up_eq_of_no_wrap addr k hk h]
  have h1 : (0 : Nat) < 2 ^ k := Nat.two_pow_pos k
  have h2 := Nat.div_mul_le_self (addr + 2 ^ k - 1) (2 ^ k)
  omega

/-- Without wrapping, `align_up` returns the least multiple of the
alignment that is ≥ `addr`. -/
theorem align_up_least (addr k m : Nat) (hk : k ≤ 64)
    (h : addr + 2 ^ k - 1 < USIZE) (hm : 2 ^ k ∣ m) (hge : addr ≤ m) :
    align_up addr (2 ^ k) ≤ m := by
  rw [align_up_eq_of_no_wrap addr k hk h]
  obtain ⟨t, rfl⟩ := hm
  have h1 : (0 : Nat) < 2 ^ k := Nat.two_pow_pos k
  have h2 : (addr + 2 ^ k - 1) / 2 ^ k ≤ t := by
    have h3 : addr + 2 ^ k - 1 < (t + 1) * 2 ^ k := by
      have h4 : (t + 1) * 2 ^ k = t * 2 ^ k + 2 ^ k := by ring
      have h5 : 2 ^ k * t = t * 2 ^ k := Nat.mul_comm _ _
      omega
    have h6 := (Nat.div_lt_iff_lt_mul h1).mpr h3
    omega
  calc (addr + 2 ^ k - 1) / 2 ^ k * 2 ^ k ≤ t * 2 ^ k := Nat.mul_le_mul_right _ h2
    _ = 2 ^ k * t := Nat.mul_comm _ _

/-- A multiple of the alignment that does not wrap is a fixed point of
`align_up`. -/
theorem align_up_fixed (addr k : Nat) (hk : k ≤ 64)
    (hdvd : 2 ^ k ∣ addr) (h : addr + 2 ^ k - 1 < USIZE) :
    align_up addr (2 ^ k) = addr :=
  Nat.le_antisymm (align_up_least addr k addr hk h hdvd (Nat.le_refl _))
    (align_up_ge addr k hk h)

/-! ## Layouts and the bump allocator (`src/allocator/bump.rs`) -/

/-- `alloc::alloc::Layout`: a size / alignment request pair.  The Rust
type guarantees that the alignment is a power of two fitting in `usize`;
theorems that need it take that as the `alignPow2` hypothesis. -/
structure Layout where
  size : Nat
  align : Nat
deriving DecidableEq, Repr

/-- The alignment guarantee of `alloc::alloc::Layout`: a power of two
representable in `usize`. -/
def Layout.alignPow2 (l : Layout) : Prop := ∃ k, k ≤ 63 ∧ l.align = 2 ^ k

/-- State of `BumpAllocator`: `heap_start`, `heap_end`, `next` cursor and
outstanding-`allocations` counter. -/
structure BumpState where
  heap_start : Nat
  heap_end : Nat
  next : Nat
  allocations : Nat
deriving DecidableEq, Repr

/-- `BumpAllocator::new()`. -/
def BumpState.new : BumpState := ⟨0, 0, 0, 0⟩

/-- `BumpAllocator::init(heap_start, heap_size)`. -/
def bump_init (s : BumpState) (heap_start heap_size : Nat) : BumpState :=
  { s with heap_start := heap_start, heap_end := heap_start + heap_size,
           next := heap_start }

/-- `<Locked<BumpAllocator> as GlobalAlloc>::alloc`.  A `none` result
models the `ptr::null_mut()` failure sentinel (the `checked_add` overflow
early return and the `alloc_end > heap_end` branch); the state component
is the allocator state after the call. -/
def bump_alloc (s : BumpState) (l : Layout) : Option Nat × BumpState :=
  if USIZE ≤ align_up s.next l.align + l.size then (none, s)
  else if s.heap_end < align_up s.next l.align + l.size then (none, s)
  else (some (align_up s.next l.align),
    { s with next := align_up s.next l.align + l.size,
             allocations := s.allocations + 1 })

/-- `<Locked<BumpAllocator> as GlobalAlloc>::dealloc`: the pointer and
layout arguments are ignored; the counter is decremented and, when it
reaches zero, the cursor is reset to `heap_start`.  The decrement is
`Nat` truncated subtraction, which agrees with the machine `-= 1` on all
states with a positive counter — the only states a matched deallocation
can be called in. -/
def bump_dealloc (s : BumpState) : BumpState :=
  if s.allocations - 1 = 0 then
    { s with allocations := s.allocations - 1, next := s.heap_start }
  else { s with allocations := s.allocations - 1 }

/-- Run a sequence of allocation requests, requiring each to succeed. -/
def bump_alloc_all (s : BumpState) : List Layout → Option BumpState
  | [] => some s
  | l :: rest =>
    match bump_alloc s l with
    | (some _, s') => bump_alloc_all s' rest
    | (none, _) => none

theorem bump_alloc_succ {s : BumpState} {l : Layout} {a : Nat} {s' : BumpState}
    (h : bump_alloc s l = (some a, s')) :
    s'.heap_start = s.heap_start ∧ s'.heap_end = s.heap_end ∧
    s'.allocations = s.allocations + 1 := by
  unfold bump_alloc at h
  split_ifs at h with h1 h2
  · simp at h
  · simp at h
  · rw [Prod.mk.injEq] at h
    rw [← h.2]
    exact ⟨rfl, rfl, rfl⟩

theorem bump_alloc_all_props (lays : List Layout) : ∀ s s' : BumpState,
    bump_alloc_all s lays = some s' →
    s'.heap_start = s.heap_start ∧
    s'.allocations = s.allocations + lays.length := by
  induction lays with
  | nil =>
    intro s s' h
    cases h
    simp
  | cons l rest ih =>
    intro s s' h
    unfold bump_alloc_all at h
    rcases hm : bump_alloc s l with ⟨res, s1⟩
    rw [hm] at h
    cases res with
    | none => simp at h
    | some a =>
      simp only at h
      have h1 := bump_alloc_succ hm
      have h2 := ih s1 s' h
      constructor
      · rw [h2.1, h1.1]
      · rw [h2.2, h1.2.2]
        simp [List.length_cons]
        omega

theorem bump_dealloc_heap_start (s : BumpState) :
    (bump_dealloc s).heap_start = s.heap_start := by
  unfold bump_dealloc
  split_ifs <;> rfl

theorem bump_dealloc_iter : ∀ n : Nat, ∀ s : BumpState,
    s.allocations = n → 0 < n →
    (bump_dealloc^[n] s).next = s.heap_start := by
  intro n
  induction n with
  | zero => intro s _ h0; omega
  | succ m ih =>
    intro s hc _
    rw [Function.iterate_succ_apply]
    by_cases hm : m = 0
    · subst hm
      simp only [Function.iterate_zero, id]
      unfold bump_dealloc
      rw [hc]
      simp
    · have hd : (bump_dealloc s).allocations = m := by
        unfold bump_dealloc
        split_ifs <;> simp [hc]
      have := ih (bump_dealloc s) hd (by omega)
      rw [this, bump_dealloc_heap_start]

/-- C5: for every state of the bump allocator and every request with a
power-of-two alignment, `alloc` computes `start = align_up(next, align)`
and returns the failure sentinel iff `start + size` overflows `usize` or
exceeds `heap_end`, leaving the state unchanged in that case; otherwise
it sets `next = start + size`, increments the outstanding-allocation
count by one, and returns `start`. -/
theorem C5_bump_alloc_spec (s : BumpState) (l : Layout) (h : l.alignPow2) :
    ((bump_alloc s l).1 = none ↔
      USIZE ≤ align_up s.next l.align + l.size ∨
      s.heap_end < align_up s.next l.align + l.size) ∧
    ((bump_alloc s l).1 = none → (bump_alloc s l).2 = s) ∧
    (align_up s.next l.align + l.size < USIZE →
      align_up s.next l.align + l.size ≤ s.heap_end →
      bump_alloc s l =
        (some (align_up s.next l.align),
         { s with next := align_up s.next l.align + l.size,
                  allocations := s.allocations + 1 })) := by
  clear h
  unfold bump_alloc
  by_cases h1 : USIZE ≤ align_up s.next l.align + l.size
  · rw [if_pos h1]
    exact ⟨by simp [h1], fun _ => rfl, fun hov _ => by omega⟩
  · rw [if_neg h1]
    by_cases h2 : s.heap_end < align_up s.next l.align + l.size
    · rw [if_pos h2]
      exact ⟨by simp [h2], fun _ => rfl, fun _ hle => by omega⟩
    · rw [if_neg h2]
      refine ⟨by simp [h1, h2], by simp, fun _ _ => rfl⟩

/-- Witness for C5: a concrete successful allocation on the heap
`[64, 164)` with cursor at 64. -/
theorem C5_bump_alloc_spec_witness :
    bump_alloc ⟨64, 164, 64, 0⟩ ⟨8, 8⟩ =
      (some (align_up 64 8),
       { BumpState.mk 64 164 64 0 with next := align_up 64 8 + 8,
                                       allocations := 0 + 1 }) :=
  (C5_bump_alloc_spec ⟨64, 164, 64, 0⟩ ⟨8, 8⟩ ⟨3, by omega, rfl⟩).2.2
    (by decide) (by decide)

/-- C10: when the bump allocator's `alloc` fails (returns the null
sentinel, whether from `checked_add` overflow or from exceeding
`heap_end`), the allocator state — `next`, the allocation count,
`heap_start` and `heap_end` — is unchanged. -/
theorem C10_bump_alloc_fail_preserves_state (s : BumpState) (l : Layout)
    (h : (bump_alloc s l).1 = none) :
    (bump_alloc s l).2 = s := by
  unfold bump_alloc at h ⊢
  split_ifs at h ⊢ <;> first | rfl | simp at h

/-- Witness for C10: a request of 200 bytes on the heap `[64, 164)`
fails and leaves the state intact. -/
theorem C10_bump_alloc_fail_preserves_state_witness :
    (bump_alloc ⟨64, 164, 64, 0⟩ ⟨200, 8⟩).2 = ⟨64, 164, 64, 0⟩ :=
  C10_bump_alloc_fail_preserves_state ⟨64, 164, 64, 0⟩ ⟨200, 8⟩ (by decide)

/-- C6: starting from a freshly initialized bump allocator, after any
sequence of `N` successful allocations followed by the same `N`
deallocations, the cursor `next` is back at the initial heap start.
(`dealloc` ignores its pointer and layout arguments, so every order of
the `N` deallocations performs the same `N` state transitions.) -/
theorem C6_bump_reset (heap_start heap_size : Nat) (lays : List Layout)
    (s' : BumpState)
    (h : bump_alloc_all (bump_init BumpState.new heap_start heap_size) lays
          = some s') :
    (bump_dealloc^[lays.length] s').next = heap_start := by
  have hp := bump_alloc_all_props lays _ s' h
  cases lays with
  | nil =>
    cases h
    rfl
  | cons l rest =>
    have hn : 0 < (l :: rest).length := by simp
    have := bump_dealloc_iter (l :: rest).length s' (by
      rw [hp.2]
      simp [bump_init, BumpState.new]) hn
    rw [this, hp.1]
    simp [bump_init]

/-- Witness for C6: two concrete allocations on the heap `[64, 164)`
followed by two deallocations put the cursor back at 64. -/
theorem C6_bump_reset_witness :
    (bump_dealloc^[([⟨8, 8⟩, ⟨4, 4⟩] : List Layout).length]
      (BumpState.mk 64 164 76 2)).next = 64 :=
  C6_bump_reset 64 100 [⟨8, 8⟩, ⟨4, 4⟩] ⟨64, 164, 76, 2⟩ (by decide)

/-! ## The free-list allocator (`src/allocator/linked_list.rs`) -/

/-- `mem::size_of::<ListNode>()` on the x86_64 target: a `usize` size
field plus an `Option<&'static mut ListNode>` (a niche-optimized
pointer), 8 + 8 bytes. -/
def listNodeSize : Nat := 16

/-- `mem::align_of::<ListNode>()` on the x86_64 target. -/
def listNodeAlign : Nat := 8

/-- A free region of the intrusive list: the `ListNode` written at
address `start` describes the span `[start, start + size)`.  The list
hanging off `head.next` is embedded as a `List Region` in link order. -/
structure Region where
  start : Nat
  size : Nat
deriving DecidableEq, Repr

/-- `ListNode::end_addr()`. -/
def Region.endAddr (r : Region) : Nat := r.start + r.size

/-- `LinkedListAllocator::alloc_from_region`: `Ok(alloc_start)` becomes
`some`, `Err(())` becomes `none`.  The first guard is the `checked_add`
overflow test, the second the `alloc_end > region.end_addr()` test, the
third the leftover-too-small-for-a-`ListNode` test. -/
def alloc_from_region (r : Region) (size align : Nat) : Option Nat :=
  if USIZE ≤ align_up r.start align + size then none
  else if r.endAddr < align_up r.start align + size then none
  else if 0 < r.endAddr - (align_up r.start align + size) ∧
          r.endAddr - (align_up r.start align + size) < listNodeSize then none
  else some (align_up r.start align)

/-- `LinkedListAllocator::find_region`: first-fit scan over the list; a
matching node is unlinked, the rest of the list keeps its order. -/
def find_region (size align : Nat) : List Region → Option (Region × Nat × List Region)
  | [] => none
  | r :: rest =>
    match alloc_from_region r size align with
    | some a => some (r, a, rest)
    | none =>
      match find_region size align rest with
      | some (n, a, rest') => some (n, a, r :: rest')
      | none => none

/-- The two `assert!`s at the top of `add_free_region`: the start
address satisfies the `ListNode` alignment and the region can hold a
`ListNode`. -/
def addFreeRegionPre (addr size : Nat) : Prop :=
  align_up addr listNodeAlign = addr ∧ listNodeSize ≤ size

/-- `LinkedListAllocator::add_free_region` (after its asserts): writes
a node at `addr` and pushes it to the front of the list. -/
def add_free_region (l : List Region) (addr size : Nat) : List Region :=
  ⟨addr, size⟩ :: l

/-- `LinkedListAllocator::init`: the whole heap becomes one region. -/
def ll_init (heap_start heap_size : Nat) : List Region :=
  add_free_region [] heap_start heap_size

/-- `LinkedListAllocator::size_align`: adjust the layout so that the
allocated region can also store a `ListNode` later:
`layout.align_to(align_of::<ListNode>()).pad_to_align()`, then the size
is raised to at least `size_of::<ListNode>()`. -/
def size_align (l : Layout) : Nat × Nat :=
  (max ((l.size + max l.align listNodeAlign - 1) / max l.align listNodeAlign
          * max l.align listNodeAlign) listNodeSize,
   max l.align listNodeAlign)

/-- `<Locked<LinkedListAllocator> as GlobalAlloc>::alloc`: pad the
layout, find a region first-fit, re-insert a non-empty leftover tail. -/
def ll_alloc (regions : List Region) (l : Layout) : Option Nat × List Region :=
  match find_region (size_align l).1 (size_align l).2 regions with
  | some (region, alloc_start, rest) =>
    if 0 < region.endAddr - (alloc_start + (size_align l).1) then
      (some alloc_start,
       add_free_region rest (alloc_start + (size_align l).1)
         (region.endAddr - (alloc_start + (size_align l).1)))
    else (some alloc_start, rest)
  | none => (none, regions)

/-- `<Locked<LinkedListAllocator> as GlobalAlloc>::dealloc`: recompute
the padded size and push the freed span onto the list. -/
def ll_dealloc (regions : List Region) (ptr : Nat) (l : Layout) : List Region :=
  add_free_region regions ptr (size_align l).1

theorem alloc_from_region_some {r : Region} {size align a : Nat}
    (h : alloc_from_region r size align = some a) :
    a = align_up r.start align ∧ a + size < USIZE ∧
    a + size ≤ r.endAddr ∧
    (r.endAddr - (a + size) = 0 ∨ listNodeSize ≤ r.endAddr - (a + size)) := by
  unfold alloc_from_region at h
  split_ifs at h with h1 h2 h3
  · cases h
    refine ⟨rfl, by omega, by omega, ?_⟩
    unfold listNodeSize at h3 ⊢
    omega

theorem find_region_some_spec (size align : Nat) : ∀ (regions : List Region)
    {r : Region} {a : Nat} {rest : List Region},
    find_region size align regions = some (r, a, rest) →
    ∃ i, regions[i]? = some r ∧ rest = regions.eraseIdx i ∧
      alloc_from_region r size align = some a ∧
      ∀ j, j < i → ∀ r', regions[j]? = some r' →
        alloc_from_region r' size align = none := by
  intro regions
  induction regions with
  | nil =>
    intro r a rest h
    simp [find_region] at h
  | cons x xs ih =>
    intro r a rest h
    unfold find_region at h
    cases hx : alloc_from_region x size align with
    | some a0 =>
      rw [hx] at h
      simp only [Option.some.injEq, Prod.mk.injEq] at h
      obtain ⟨h1, h2, h3⟩ := h
      subst h1
      subst h2
      subst h3
      exact ⟨0, by simp, rfl, hx, fun j hj => by omega⟩
    | none =>
      rw [hx] at h
      cases hf : find_region size align xs with
      | none =>
        rw [hf] at h
        simp at h
      | some p =>
        obtain ⟨n1, a1, rest1⟩ := p
        rw [hf] at h
        simp only [Option.some.injEq, Prod.mk.injEq] at h
        obtain ⟨h1, h2, h3⟩ := h
        subst h1
        subst h2
        obtain ⟨i, hgi, hei, hsome, hfirst⟩ := ih hf
        refine ⟨i + 1, by simpa using hgi, ?_, hsome, ?_⟩
        · rw [← h3, hei]
          rfl
        · intro j hj r' hr'
          cases j with
          | zero =>
            simp at hr'
            rw [← hr']
            exact hx
          | succ j' =>
            exact hfirst j' (by omega) r' (by simpa using hr')

theorem find_region_none (size align : Nat) : ∀ regions : List Region,
    find_region size align regions = none ↔
    ∀ r ∈ regions, alloc_from_region r size align = none := by
  intro regions
  induction regions with
  | nil => simp [find_region]
  | cons x xs ih =>
    unfold find_region
    cases hx : alloc_from_region x size align with
    | some a0 =>
      simp only
      constructor
      · intro h
        simp at h
      · intro h
        have := h x (by simp)
        rw [hx] at this
        cases this
    | none =>
      cases hf : find_region size align xs with
      | none =>
        simp only
        constructor
        · intro _ r hr
          rcases List.mem_cons.mp hr with h | h
          · rw [h]
            exact hx
          · exact (ih.mp hf) r h
        · intro _
          trivial
      | some p =>
        obtain ⟨n1, a1, rest1⟩ := p
        simp only
        constructor
        · intro h
          cases h
        · intro h
          have : find_region size align xs = none :=
            ih.mpr fun r hr => h r (by simp [hr])
          rw [this] at hf
          cases hf

/-- A found region is a member of the list, and the post-removal list
is member-wise contained in the original. -/
theorem find_region_mem {size align : Nat} : ∀ {regions : List Region}
    {r : Region} {a : Nat} {rest : List Region},
    find_region size align regions = some (r, a, rest) →
    r ∈ regions ∧ ∀ x ∈ rest, x ∈ regions := by
  intro regions
  induction regions with
  | nil =>
    intro r a rest h
    simp [find_region] at h
  | cons y ys ih =>
    intro r a rest h
    unfold find_region at h
    cases hx : alloc_from_region y size align with
    | some a0 =>
      rw [hx] at h
      simp only [Option.some.injEq, Prod.mk.injEq] at h
      obtain ⟨h1, _, h3⟩ := h
      subst h1
      subst h3
      exact ⟨by simp, fun x hx => by simp [hx]⟩
    | none =>
      rw [hx] at h
      cases hf : find_region size align ys with
      | none =>
        rw [hf] at h
        simp at h
      | some p =>
        obtain ⟨n1, a1, rest1⟩ := p
        rw [hf] at h
        simp only [Option.some.injEq, Prod.mk.injEq] at h
        obtain ⟨h1, _, h3⟩ := h
        subst h1
        obtain ⟨hm, hsub⟩ := ih hf
        refine ⟨by simp [hm], ?_⟩
        intro x hxm
        rw [← h3] at hxm
        rcases List.mem_cons.mp hxm with h | h
        · simp [h]
        · simp [hsub x h]

/-- C1: `find_region(size, align)` scans the list front-to-back
(first-fit).  A returned region is the first one on which
`alloc_from_region` succeeds; it satisfies
`alloc_start = align_up(region.start, align)`,
`alloc_start + size ≤ region.end`, and its leftover tail is zero or at
least `size_of::<ListNode>()`; it is unlinked from the list.  A `none`
result means no region passes those checks. -/
theorem C1_find_region_first_fit (size align : Nat) (regions : List Region) :
    (∀ r a rest, find_region size align regions = some (r, a, rest) →
      a = align_up r.start align ∧
      a + size ≤ r.endAddr ∧
      (r.endAddr - (a + size) = 0 ∨ listNodeSize ≤ r.endAddr - (a + size)) ∧
      ∃ i, regions[i]? = some r ∧ rest = regions.eraseIdx i ∧
        ∀ j, j < i → ∀ r', regions[j]? = some r' →
          alloc_from_region r' size align = none) ∧
    (find_region size align regions = none ↔
      ∀ r ∈ regions, alloc_from_region r size align = none) := by
  constructor
  · intro r a rest h
    obtain ⟨i, hi, he, hs, hf⟩ := find_region_some_spec size align regions h
    obtain ⟨h1, _, h3, h4⟩ := alloc_from_region_some hs
    exact ⟨h1, h3, h4, i, hi, he, hf⟩
  · exact find_region_none size align regions

/-- Witness for C1: in the list `[⟨0, 8⟩, ⟨64, 100⟩]`, the 8-byte first
region is skipped for a 16-byte request and the second is used. -/
theorem C1_find_region_first_fit_witness :
    64 + 16 ≤ Region.endAddr ⟨64, 100⟩ :=
  ((C1_find_region_first_fit 16 8 [⟨0, 8⟩, ⟨64, 100⟩]).1 ⟨64, 100⟩ 64 [⟨0, 8⟩]
    (by decide)).2.1

/-- C7: for every address and power-of-two alignment (the computation
staying within machine-word range), `align_up(address, align)` is the
smallest multiple of `align` that is ≥ `address`. -/
theorem C7_align_up_least_multiple (addr align : Nat)
    (h : ∃ k, k ≤ 63 ∧ align = 2 ^ k) (hnw : addr + align - 1 < USIZE) :
    align ∣ align_up addr align ∧ addr ≤ align_up addr align ∧
    ∀ m, align ∣ m → addr ≤ m → align_up addr align ≤ m := by
  obtain ⟨k, hk, rfl⟩ := h
  exact ⟨align_up_dvd addr k (by omega),
         align_up_ge addr k (by omega) hnw,
         fun m hm hge => align_up_least addr k m (by omega) hnw hm hge⟩

/-- Witness for C7: `align_up 5 8` is at most the multiple 16 of 8. -/
theorem C7_align_up_least_multiple_witness :
    align_up 5 8 ≤ 16 :=
  (C7_align_up_least_multiple 5 8 ⟨3, by omega, rfl⟩ (by decide)).2.2 16
    ⟨2, rfl⟩ (by omega)

/-! ## Reachable states of the free-list allocator -/

/-- Parameters of a correct `init(heap_start, heap_size)` call: the
start address satisfies the `ListNode` alignment assert, the size the
`ListNode` size assert, and the heap lies within the address space. -/
structure LLConfig where
  heap_start : Nat
  heap_size : Nat
deriving DecidableEq, Repr

/-- The heap's upper bound. -/
def LLConfig.heap_end (c : LLConfig) : Nat := c.heap_start + c.heap_size

/-- Correctness of the `init` parameters. -/
def LLConfig.valid (c : LLConfig) : Prop :=
  align_up c.heap_start listNodeAlign = c.heap_start ∧
  listNodeSize ≤ c.heap_size ∧ c.heap_start + c.heap_size < USIZE

/-- The conditions `add_free_region` asserts, plus the heap bound: what
every region on the free list must satisfy. -/
def regionOK (c : LLConfig) (r : Region) : Prop :=
  r.endAddr ≤ c.heap_end ∧ listNodeSize ≤ r.size ∧
  align_up r.start listNodeAlign = r.start

/-- Invariant of a live allocation handed out by the free-list
allocator: its padded span fits under the heap's upper bound and starts
at a `ListNode`-aligned address. -/
def liveOK (c : LLConfig) (p : Nat × Layout) : Prop :=
  p.1 + (size_align p.2).1 ≤ c.heap_end ∧
  align_up p.1 listNodeAlign = p.1

/-- States (free list, live allocations) of the free-list allocator
reachable from a correct `init` by `alloc` calls (with the
power-of-two alignment every `Layout` guarantees) and layout-matched
`dealloc` calls.  A failed `alloc` leaves the state unchanged, so it
needs no step. -/
inductive LLReach (c : LLConfig) : List Region → List (Nat × Layout) → Prop
  | init : c.valid → LLReach c (ll_init c.heap_start c.heap_size) []
  | alloc {regions live lay a regions'} :
      LLReach c regions live → Layout.alignPow2 lay →
      ll_alloc regions lay = (some a, regions') →
      LLReach c regions' ((a, lay) :: live)
  | dealloc {regions live a lay} :
      LLReach c regions live → (a, lay) ∈ live →
      LLReach c (ll_dealloc regions a lay) (live.erase (a, lay))

theorem size_align_align {lay : Layout} (h : lay.alignPow2) :
    ∃ k, 3 ≤ k ∧ k ≤ 63 ∧ (size_align lay).2 = 2 ^ k ∧ lay.align ∣ 2 ^ k := by
  obtain ⟨k, hk, ha⟩ := h
  refine ⟨max k 3, by omega, by omega, ?_, ?_⟩
  · show max lay.align listNodeAlign = 2 ^ max k 3
    rw [ha]
    show max (2 ^ k) (2 ^ 3) = 2 ^ max k 3
    rcases Nat.le_total k 3 with h1 | h1
    · rw [Nat.max_eq_right (Nat.pow_le_pow_right (by omega) h1),
          Nat.max_eq_right h1]
    · rw [Nat.max_eq_left (Nat.pow_le_pow_right (by omega) h1),
          Nat.max_eq_left h1]
  · rw [ha]
    exact Nat.pow_dvd_pow 2 (Nat.le_max_left k 3)

theorem size_align_size (lay : Layout) :
    listNodeSize ≤ (size_align lay).1 ∧ lay.size ≤ (size_align lay).1 := by
  constructor
  · exact Nat.le_max_right _ _
  · refine Nat.le_trans ?_ (Nat.le_max_left _ _)
    have hA : (8 : Nat) ≤ max lay.align listNodeAlign := Nat.le_max_right _ _
    set M := max lay.align listNodeAlign with hM
    have h2 := Nat.lt_div_mul_add (a := lay.size + M - 1) (show 0 < M by omega)
    set D := (lay.size + M - 1) / M * M with hD
    omega

theorem size_align_dvd {lay : Layout} (h : lay.alignPow2) :
    (8 : Nat) ∣ (size_align lay).1 := by
  obtain ⟨k, hk3, _, hsa, _⟩ := size_align_align h
  have h8 : (8 : Nat) ∣ max lay.align listNodeAlign := by
    have he : (size_align lay).2 = max lay.align listNodeAlign := rfl
    rw [he] at hsa
    rw [hsa]
    exact Nat.pow_dvd_pow 2 hk3
  rcases max_choice
      ((lay.size + max lay.align listNodeAlign - 1) / max lay.align listNodeAlign
        * max lay.align listNodeAlign) listNodeSize with hm | hm
  · show (8 : Nat) ∣ max _ listNodeSize
    rw [hm]
    exact Dvd.dvd.mul_left h8 _
  · show (8 : Nat) ∣ max _ listNodeSize
    rw [hm]
    decide

/-- What a successful `alloc` call on the free-list allocator
guarantees: the new list still satisfies the record invariant, the
padded span fits under the heap bound, the address satisfies the
requested alignment and the `ListNode` alignment. -/
theorem ll_alloc_some {c : LLConfig} {regions : List Region} {lay : Layout}
    {a : Nat} {regions' : List Region}
    (hval : c.valid) (hreg : ∀ r ∈ regions, regionOK c r)
    (hp : lay.alignPow2)
    (h : ll_alloc regions lay = (some a, regions')) :
    (∀ r ∈ regions', regionOK c r) ∧
    a + (size_align lay).1 ≤ c.heap_end ∧
    lay.align ∣ a ∧
    align_up a listNodeAlign = a := by
  obtain ⟨k, hk3, hk63, hsa, hdvd0⟩ := size_align_align hp
  have hsz := size_align_size lay
  have hsd := size_align_dvd hp
  unfold ll_alloc at h
  cases hfr : find_region (size_align lay).1 (size_align lay).2 regions with
  | none =>
    rw [hfr] at h
    simp at h
  | some p =>
    obtain ⟨region, alloc_start, rest⟩ := p
    rw [hfr] at h
    dsimp only at h
    obtain ⟨hmem, hsub⟩ := find_region_mem hfr
    obtain ⟨i, _, _, hafr, _⟩ := find_region_some_spec _ _ regions hfr
    obtain ⟨heq, hov, hle, hexc⟩ := alloc_from_region_some hafr
    have hrOK := hreg region hmem
    have hdvd2k : 2 ^ k ∣ alloc_start := by
      rw [heq, hsa]
      exact align_up_dvd _ k (by omega)
    have h8 : (8 : Nat) ∣ alloc_start :=
      dvd_trans (Nat.pow_dvd_pow 2 hk3) hdvd2k
    have halign : lay.align ∣ alloc_start := dvd_trans hdvd0 hdvd2k
    have hbound : alloc_start + (size_align lay).1 ≤ c.heap_end :=
      Nat.le_trans hle hrOK.1
    have hendlt : c.heap_end < USIZE := hval.2.2
    have hfix : align_up alloc_start listNodeAlign = alloc_start := by
      have := align_up_fixed alloc_start 3 (by omega) h8 (by
        show alloc_start + 2 ^ 3 - 1 < USIZE
        have h16 : listNodeSize ≤ (size_align lay).1 := hsz.1
        unfold listNodeSize at h16
        unfold LLConfig.heap_end at hbound
        unfold LLConfig.valid at hval
        omega)
      exact this
    by_cases hex : 0 < region.endAddr - (alloc_start + (size_align lay).1)
    · rw [if_pos hex, Prod.mk.injEq] at h
      obtain ⟨ha, hrg⟩ := h
      have ha' : alloc_start = a := Option.some.inj ha
      subst ha'
      subst hrg
      refine ⟨?_, hbound, halign, hfix⟩
      intro r hr
      unfold add_free_region at hr
      rcases List.mem_cons.mp hr with hh | hh
      · subst hh
        have hend : alloc_start + (size_align lay).1 +
            (region.endAddr - (alloc_start + (size_align lay).1))
            = region.endAddr := by omega
        refine ⟨?_, ?_, ?_⟩
        · show alloc_start + (size_align lay).1 +
            (region.endAddr - (alloc_start + (size_align lay).1)) ≤ c.heap_end
          rw [hend]
          exact hrOK.1
        · show listNodeSize ≤ region.endAddr - (alloc_start + (size_align lay).1)
          unfold listNodeSize at hexc ⊢
          omega
        · show align_up (alloc_start + (size_align lay).1) listNodeAlign
            = alloc_start + (size_align lay).1
          have h8' : (8 : Nat) ∣ alloc_start + (size_align lay).1 :=
            Nat.dvd_add h8 hsd
          have hlt : alloc_start + (size_align lay).1 + 2 ^ 3 - 1 < USIZE := by
            have h16 : listNodeSize ≤ region.endAddr -
                (alloc_start + (size_align lay).1) := by
              unfold listNodeSize at hexc ⊢
              omega
            have hre : region.endAddr ≤ c.heap_end := hrOK.1
            unfold listNodeSize at h16
            omega
          exact align_up_fixed _ 3 (by omega) h8' hlt
      · exact hreg r (hsub r hh)
    · rw [if_neg hex, Prod.mk.injEq] at h
      obtain ⟨ha, hrg⟩ := h
      have ha' : alloc_start = a := Option.some.inj ha
      subst ha'
      subst hrg
      exact ⟨fun r hr => hreg r (hsub r hr), hbound, halign, hfix⟩

/-- A layout-matched `dealloc` preserves the record invariant. -/
theorem ll_dealloc_ok {c : LLConfig} {regions : List Region} {a : Nat}
    {lay : Layout} (hreg : ∀ r ∈ regions, regionOK c r)
    (hlive : liveOK c (a, lay)) :
    ∀ r ∈ ll_dealloc regions a lay, regionOK c r := by
  intro r hr
  unfold ll_dealloc add_free_region at hr
  rcases List.mem_cons.mp hr with h | h
  · subst h
    exact ⟨hlive.1, (size_align_size lay).1, hlive.2⟩
  · exact hreg r h

/-- `init` establishes the record invariant. -/
theorem ll_init_ok {c : LLConfig} (hv : c.valid) :
    ∀ r ∈ ll_init c.heap_start c.heap_size, regionOK c r := by
  intro r hr
  unfold ll_init add_free_region at hr
  rcases List.mem_cons.mp hr with h | h
  · subst h
    exact ⟨Nat.le_refl _, hv.2.1, hv.1⟩
  · cases h

/-- Main invariant of reachable free-list allocator states. -/
theorem llReach_inv {c : LLConfig} {regions : List Region}
    {live : List (Nat × Layout)} (h : LLReach c regions live) :
    c.valid ∧ (∀ r ∈ regions, regionOK c r) ∧ ∀ p ∈ live, liveOK c p := by
  induction h with
  | init hv => exact ⟨hv, ll_init_ok hv, by simp⟩
  | alloc _ hp hal ih =>
    obtain ⟨hv, hreg, hlive⟩ := ih
    obtain ⟨hreg', hbound, _, hfix⟩ := ll_alloc_some hv hreg hp hal
    refine ⟨hv, hreg', ?_⟩
    intro p hp'
    rcases List.mem_cons.mp hp' with hh | hh
    · subst hh
      exact ⟨hbound, hfix⟩
    · exact hlive p hh
  | dealloc _ hmem ih =>
    obtain ⟨hv, hreg, hlive⟩ := ih
    refine ⟨hv, ll_dealloc_ok hreg (hlive _ hmem), ?_⟩
    intro p hp'
    exact hlive p (List.mem_of_mem_erase hp')

/-- C8: in every reachable state of the free-list allocator, every
region on the list is at least `size_of::<ListNode>()` bytes and starts
at a `ListNode`-aligned address; the two `assert!`s of
`add_free_region` therefore cannot fire at its two re-insertion call
sites: every region present after an `alloc` re-inserts a leftover tail
satisfies them, and the padded span of every live allocation (what
`dealloc` re-inserts) satisfies them. -/
theorem C8_free_list_record_invariant (c : LLConfig) (regions : List Region)
    (live : List (Nat × Layout)) (h : LLReach c regions live) :
    (∀ r ∈ regions, addFreeRegionPre r.start r.size) ∧
    (∀ lay a regions', Layout.alignPow2 lay →
      ll_alloc regions lay = (some a, regions') →
      ∀ r ∈ regions', addFreeRegionPre r.start r.size) ∧
    (∀ p ∈ live, addFreeRegionPre p.1 (size_align p.2).1) := by
  obtain ⟨hv, hreg, hlive⟩ := llReach_inv h
  refine ⟨?_, ?_, ?_⟩
  · intro r hr
    exact ⟨(hreg r hr).2.2, (hreg r hr).2.1⟩
  · intro lay a regions' hp hal
    intro r hr
    have hreg' := (ll_alloc_some hv hreg hp hal).1
    exact ⟨(hreg' r hr).2.2, (hreg' r hr).2.1⟩
  · intro p hp'
    exact ⟨(hlive p hp').2, (size_align_size p.2).1⟩

/-- Witness for C8: the freshly initialized allocator on the heap
`[64, 164)` — its single region satisfies the asserted conditions. -/
theorem C8_free_list_record_invariant_witness :
    addFreeRegionPre (Region.mk 64 100).start (Region.mk 64 100).size :=
  (C8_free_list_record_invariant ⟨64, 100⟩ (ll_init 64 100) []
    (LLReach.init (by refine ⟨by decide, by decide, by decide⟩))).1
    ⟨64, 100⟩ (by decide)

/-! ## The fixed-size-block allocator (`src/allocator/fixed_size_block.rs`) -/

/-- `BLOCK_SIZES`: the available block sizes (powers of two, so a block
size can double as the block alignment). -/
def BLOCK_SIZES : List Nat := [8, 16, 32, 64, 128, 256, 512, 1024, 2048]

/-- `list_index`: the index of the smallest block size that fits both
the size and the alignment of the layout
(`BLOCK_SIZES.iter().position(|&s| s >= required_block_size)`). -/
def list_index (l : Layout) : Option Nat :=
  BLOCK_SIZES.findIdx? fun s => max l.size l.align ≤ s

/-- State of `FixedSizeBlockAllocator`: one intrusive list of free
block addresses per entry of `BLOCK_SIZES` (embedded as the list of
block start addresses in link order), plus the embedded fallback
`LinkedListAllocator`. -/
structure FSBState where
  list_heads : List (List Nat)
  fallback : List Region
deriving DecidableEq, Repr

/-- `FixedSizeBlockAllocator::new()` followed by `init(heap_start,
heap_size)`: all class lists empty, the whole heap owned by the
fallback allocator. -/
def fsb_init (heap_start heap_size : Nat) : FSBState :=
  ⟨List.replicate BLOCK_SIZES.length [], ll_init heap_start heap_size⟩

/-- `<Locked<FixedSizeBlockAllocator> as GlobalAlloc>::alloc`: pop the
head of the matching class list; if that list is empty, request one
block of the class's size, aligned to that same size, from the
fallback allocator; if no class fits, delegate the layout unchanged to
the fallback allocator. -/
def fsb_alloc (s : FSBState) (lay : Layout) : Option Nat × FSBState :=
  match list_index lay with
  | some index =>
    match s.list_heads.getD index [] with
    | node :: rest =>
      (some node, { s with list_heads := s.list_heads.set index rest })
    | [] =>
      ((ll_alloc s.fallback
          ⟨BLOCK_SIZES.getD index 0, BLOCK_SIZES.getD index 0⟩).1,
       { s with fallback :=
          (ll_alloc s.fallback
            ⟨BLOCK_SIZES.getD index 0, BLOCK_SIZES.getD index 0⟩).2 })
  | none =>
    ((ll_alloc s.fallback lay).1,
     { s with fallback := (ll_alloc s.fallback lay).2 })

/-- `<Locked<FixedSizeBlockAllocator> as GlobalAlloc>::dealloc`: push
the block onto the matching class list, or forward to the fallback
allocator when no class fits. -/
def fsb_dealloc (s : FSBState) (ptr : Nat) (lay : Layout) : FSBState :=
  match list_index lay with
  | some index =>
    { s with list_heads :=
        s.list_heads.set index (ptr :: s.list_heads.getD index []) }
  | none => { s with fallback := ll_dealloc s.fallback ptr lay }

theorem list_index_some {lay : Layout} {i : Nat}
    (h : list_index lay = some i) :
    i < BLOCK_SIZES.length ∧
    max lay.size lay.align ≤ BLOCK_SIZES.getD i 0 ∧
    ∀ j, j < i → BLOCK_SIZES.getD j 0 < max lay.size lay.align := by
  unfold list_index at h
  rw [List.findIdx?_eq_some_iff_getElem] at h
  obtain ⟨hlen, hp, hprev⟩ := h
  simp only [decide_eq_true_eq] at hp
  refine ⟨hlen, ?_, ?_⟩
  · have hD : BLOCK_SIZES.getD i 0 = BLOCK_SIZES[i] := by
      rw [List.getD_eq_getElem?_getD, List.getElem?_eq_getElem hlen]
      rfl
    rw [hD]
    exact hp
  · intro j hj
    have hjl : j < BLOCK_SIZES.length := Nat.lt_trans hj hlen
    have hD : BLOCK_SIZES.getD j 0 = BLOCK_SIZES[j] := by
      rw [List.getD_eq_getElem?_getD, List.getElem?_eq_getElem hjl]
      rfl
    have := hprev j hj
    simp only [decide_eq_true_eq] at this
    rw [hD]
    omega

theorem list_index_none_iff (lay : Layout) :
    list_index lay = none ↔ 2048 < max lay.size lay.align := by
  unfold list_index
  rw [List.findIdx?_eq_none_iff]
  constructor
  · intro h
    have h1 := h 2048 (by decide)
    simp only [decide_eq_false_iff_not] at h1
    omega
  · intro h x hx
    simp only [decide_eq_false_iff_not]
    have hle : x ≤ 2048 := by
      fin_cases hx <;> omega
    omega

theorem block_sizes_pow {i : Nat} (h : i < BLOCK_SIZES.length) :
    BLOCK_SIZES.getD i 0 = 2 ^ (i + 3) := by
  unfold BLOCK_SIZES at h ⊢
  simp only [List.length_cons, List.length_nil] at h
  interval_cases i <;> rfl

theorem getD_set_self {l : List (List Nat)} {i : Nat} {x : List Nat}
    (h : i < l.length) : (l.set i x).getD i [] = x := by
  rw [List.getD_eq_getElem?_getD, List.getElem?_set_self h]
  rfl

theorem getD_set_ne {l : List (List Nat)} {i j : Nat} {x : List Nat}
    (h : i ≠ j) : (l.set i x).getD j [] = l.getD j [] := by
  rw [List.getD_eq_getElem?_getD, List.getElem?_set_ne h,
      ← List.getD_eq_getElem?_getD]

/-! ## Reachable states of the composed allocator -/

/-- Class-block invariant: every block parked in class list `i` is
aligned to `BLOCK_SIZES[i]` and fits under the heap bound. -/
def classOK (c : LLConfig) (i a : Nat) : Prop :=
  BLOCK_SIZES.getD i 0 ∣ a ∧ a + BLOCK_SIZES.getD i 0 ≤ c.heap_end

/-- Live-allocation invariant for the composed allocator: a request
served by class `i` is block-aligned and block-bounded; a request
served by the fallback satisfies the fallback's `liveOK`. -/
def fsbLiveOK (c : LLConfig) (p : Nat × Layout) : Prop :=
  match list_index p.2 with
  | some i => classOK c i p.1
  | none => liveOK c p

/-- Invariant of the composed allocator's state. -/
def fsbInv (c : LLConfig) (s : FSBState) (live : List (Nat × Layout)) : Prop :=
  s.list_heads.length = BLOCK_SIZES.length ∧
  (∀ i, ∀ a ∈ s.list_heads.getD i [], classOK c i a) ∧
  (∀ r ∈ s.fallback, regionOK c r) ∧
  (∀ p ∈ live, fsbLiveOK c p)

/-- States of the composed allocator reachable from a correct `init` by
`alloc` calls and layout-matched `dealloc` calls. -/
inductive FSBReach (c : LLConfig) : FSBState → List (Nat × Layout) → Prop
  | init : c.valid → FSBReach c (fsb_init c.heap_start c.heap_size) []
  | alloc {s live lay a s'} :
      FSBReach c s live → Layout.alignPow2 lay →
      fsb_alloc s lay = (some a, s') →
      FSBReach c s' ((a, lay) :: live)
  | dealloc {s live a lay} :
      FSBReach c s live → (a, lay) ∈ live →
      FSBReach c (fsb_dealloc s a lay) (live.erase (a, lay))

theorem block_layout_pow2 {i : Nat} (h : i < BLOCK_SIZES.length) :
    Layout.alignPow2 ⟨BLOCK_SIZES.getD i 0, BLOCK_SIZES.getD i 0⟩ := by
  refine ⟨i + 3, ?_, block_sizes_pow h⟩
  unfold BLOCK_SIZES at h
  simp only [List.length_cons, List.length_nil] at h
  omega

theorem align_dvd_block {lay : Layout} {i : Nat} (hp : lay.alignPow2)
    (hidx : list_index lay = some i) :
    lay.align ∣ BLOCK_SIZES.getD i 0 ∧ lay.size ≤ BLOCK_SIZES.getD i 0 := by
  obtain ⟨hlen, hmax, _⟩ := list_index_some hidx
  obtain ⟨k0, hk0, ha⟩ := hp
  rw [block_sizes_pow hlen] at hmax ⊢
  constructor
  · rw [ha]
    apply Nat.pow_dvd_pow
    have h1 : (2 : Nat) ^ k0 ≤ 2 ^ (i + 3) := by
      rw [← ha]
      exact Nat.le_trans (Nat.le_max_right _ _) hmax
    exact (Nat.pow_le_pow_iff_right (by omega)).mp h1
  · exact Nat.le_trans (Nat.le_max_left _ _) hmax

/-- What a successful `alloc` on the composed allocator guarantees. -/
theorem fsb_alloc_some {c : LLConfig} {s : FSBState}
    {live : List (Nat × Layout)} {lay : Layout} {a : Nat} {s' : FSBState}
    (hv : c.valid) (hinv : fsbInv c s live) (hp : lay.alignPow2)
    (h : fsb_alloc s lay = (some a, s')) :
    fsbInv c s' ((a, lay) :: live) ∧
    lay.align ∣ a ∧ a + lay.size ≤ c.heap_end := by
  obtain ⟨hlen, hclass, hfb, hlive⟩ := hinv
  unfold fsb_alloc at h
  cases hidx : list_index lay with
  | some index =>
    rw [hidx] at h
    dsimp only at h
    obtain ⟨hibs, hmax, _⟩ := list_index_some hidx
    obtain ⟨hdvdbs, hszbs⟩ := align_dvd_block hp hidx
    have hil : index < s.list_heads.length := by
      rw [hlen]
      exact hibs
    cases hL : s.list_heads.getD index [] with
    | cons node rest =>
      rw [hL] at h
      dsimp only at h
      rw [Prod.mk.injEq] at h
      obtain ⟨ha, hs'⟩ := h
      have ha' : node = a := Option.some.inj ha
      subst ha'
      subst hs'
      have hcOK : classOK c index node :=
        hclass index node (by rw [hL]; exact List.mem_cons_self _ _)
      refine ⟨⟨by simp [hlen], ?_, hfb, ?_⟩, ?_, ?_⟩
      · intro i x hx
        by_cases hie : index = i
        · subst hie
          rw [getD_set_self hil] at hx
          exact hclass index x (by rw [hL]; exact List.mem_cons_of_mem _ hx)
        · rw [getD_set_ne hie] at hx
          exact hclass i x hx
      · intro p hp'
        rcases List.mem_cons.mp hp' with hh | hh
        · subst hh
          show fsbLiveOK c (node, lay)
          unfold fsbLiveOK
          dsimp only
          rw [hidx]
          exact hcOK
        · exact hlive p hh
      · exact dvd_trans hdvdbs hcOK.1
      · have hb := hcOK.2
        omega
    | nil =>
      rw [hL] at h
      dsimp only at h
      rw [Prod.mk.injEq] at h
      obtain ⟨ha, hs'⟩ := h
      subst hs'
      have hll : ll_alloc s.fallback
          ⟨BLOCK_SIZES.getD index 0, BLOCK_SIZES.getD index 0⟩
          = (some a, (ll_alloc s.fallback
              ⟨BLOCK_SIZES.getD index 0, BLOCK_SIZES.getD index 0⟩).2) := by
        rw [← ha]
      obtain ⟨hfb', hbound, hba, _⟩ :=
        ll_alloc_some hv hfb (block_layout_pow2 hibs) hll
      have hbs_le : BLOCK_SIZES.getD index 0 ≤
          (size_align ⟨BLOCK_SIZES.getD index 0, BLOCK_SIZES.getD index 0⟩).1 :=
        (size_align_size ⟨BLOCK_SIZES.getD index 0, BLOCK_SIZES.getD index 0⟩).2
      have hablock : a + BLOCK_SIZES.getD index 0 ≤ c.heap_end := by omega
      refine ⟨⟨hlen, hclass, hfb', ?_⟩, ?_, ?_⟩
      · intro p hp'
        rcases List.mem_cons.mp hp' with hh | hh
        · subst hh
          show fsbLiveOK c (a, lay)
          unfold fsbLiveOK
          dsimp only
          rw [hidx]
          exact ⟨hba, hablock⟩
        · exact hlive p hh
      · exact dvd_trans hdvdbs hba
      · omega
  | none =>
    rw [hidx] at h
    dsimp only at h
    rw [Prod.mk.injEq] at h
    obtain ⟨ha, hs'⟩ := h
    subst hs'
    have hll : ll_alloc s.fallback lay
        = (some a, (ll_alloc s.fallback lay).2) := by
      rw [← ha]
    obtain ⟨hfb', hbound, hba, hfix⟩ := ll_alloc_some hv hfb hp hll
    have hsz := (size_align_size lay).2
    refine ⟨⟨hlen, hclass, hfb', ?_⟩, hba, by omega⟩
    intro p hp'
    rcases List.mem_cons.mp hp' with hh | hh
    · subst hh
      show fsbLiveOK c (a, lay)
      unfold fsbLiveOK
      dsimp only
      rw [hidx]
      exact ⟨hbound, hfix⟩
    · exact hlive p hh

/-- A layout-matched `dealloc` preserves the composed invariant. -/
theorem fsb_dealloc_ok {c : LLConfig} {s : FSBState}
    {live : List (Nat × Layout)} {a : Nat} {lay : Layout}
    (hinv : fsbInv c s live) (hmem : (a, lay) ∈ live) :
    fsbInv c (fsb_dealloc s a lay) (live.erase (a, lay)) := by
  obtain ⟨hlen, hclass, hfb, hlive⟩ := hinv
  have hlOK := hlive _ hmem
  unfold fsbLiveOK at hlOK
  dsimp only at hlOK
  unfold fsb_dealloc
  cases hidx : list_index lay with
  | some index =>
    rw [hidx] at hlOK
    dsimp only at hlOK
    dsimp only
    obtain ⟨hibs, _, _⟩ := list_index_some hidx
    have hil : index < s.list_heads.length := by
      rw [hlen]
      exact hibs
    refine ⟨by simp [hlen], ?_, hfb, ?_⟩
    · intro i x hx
      by_cases hie : index = i
      · subst hie
        rw [getD_set_self hil] at hx
        rcases List.mem_cons.mp hx with hh | hh
        · subst hh
          exact hlOK
        · exact hclass index x hh
      · rw [getD_set_ne hie] at hx
        exact hclass i x hx
    · intro p hp'
      exact hlive p (List.mem_of_mem_erase hp')
  | none =>
    rw [hidx] at hlOK
    dsimp only at hlOK
    dsimp only
    refine ⟨hlen, hclass, ll_dealloc_ok hfb hlOK, ?_⟩
    intro p hp'
    exact hlive p (List.mem_of_mem_erase hp')

/-- Main invariant of reachable composed-allocator states. -/
theorem fsbReach_inv {c : LLConfig} {s : FSBState}
    {live : List (Nat × Layout)} (h : FSBReach c s live) :
    c.valid ∧ fsbInv c s live := by
  induction h with
  | init hv =>
    refine ⟨hv, by simp [fsb_init], ?_, ll_init_ok hv, by simp⟩
    intro i x hx
    simp only [fsb_init] at hx
    rw [List.getD_eq_getElem?_getD, List.getElem?_replicate] at hx
    split_ifs at hx <;> simp at hx
  | alloc _ hp hal ih =>
    exact ⟨ih.1, (fsb_alloc_some ih.1 ih.2 hp hal).1⟩
  | dealloc _ hmem ih =>
    exact ⟨ih.1, fsb_dealloc_ok ih.2 hmem⟩

/-- C2: for every allocator (bump, free-list, size-classed) in any
state reachable from a correct init and layout-matched deallocations,
a successful `allocate(size, align)` with a power-of-two `align`
returns an address that is a multiple of `align`, with
`address + size` not exceeding the heap's upper bound.  (For the bump
allocator this holds in every state, which subsumes the reachable
ones.) -/
theorem C2_alloc_aligned_in_bounds :
    (∀ (s : BumpState) (lay : Layout) (a : Nat) (s' : BumpState),
      lay.alignPow2 → bump_alloc s lay = (some a, s') →
      lay.align ∣ a ∧ a + lay.size ≤ s.heap_end) ∧
    (∀ (c : LLConfig) (regions : List Region) (live : List (Nat × Layout))
      (lay : Layout) (a : Nat) (regions' : List Region),
      LLReach c regions live → lay.alignPow2 →
      ll_alloc regions lay = (some a, regions') →
      lay.align ∣ a ∧ a + lay.size ≤ c.heap_end) ∧
    (∀ (c : LLConfig) (s : FSBState) (live : List (Nat × Layout))
      (lay : Layout) (a : Nat) (s' : FSBState),
      FSBReach c s live → lay.alignPow2 →
      fsb_alloc s lay = (some a, s') →
      lay.align ∣ a ∧ a + lay.size ≤ c.heap_end) := by
  refine ⟨?_, ?_, ?_⟩
  · intro s lay a s' hp h
    obtain ⟨k, hk, ha⟩ := hp
    unfold bump_alloc at h
    split_ifs at h with h1 h2
    · simp at h
    · simp at h
    · rw [Prod.mk.injEq] at h
      have ha' : align_up s.next lay.align = a := Option.some.inj h.1
      constructor
      · rw [← ha', ha]
        exact align_up_dvd _ k (by omega)
      · omega
  · intro c regions live lay a regions' hre hp h
    obtain ⟨hv, hreg, _⟩ := llReach_inv hre
    obtain ⟨_, hbound, hdvd, _⟩ := ll_alloc_some hv hreg hp h
    have hsz := (size_align_size lay).2
    exact ⟨hdvd, by omega⟩
  · intro c s live lay a s' hre hp h
    obtain ⟨hv, hinv⟩ := fsbReach_inv hre
    obtain ⟨_, hdvd, hbound⟩ := fsb_alloc_some hv hinv hp h
    exact ⟨hdvd, hbound⟩

/-- Witness for C2: a concrete successful bump allocation of 8 bytes
aligned to 8 on the heap `[64, 164)`. -/
theorem C2_alloc_aligned_in_bounds_witness :
    (8 : Nat) ∣ 64 ∧ 64 + 8 ≤ (BumpState.mk 64 164 64 0).heap_end :=
  C2_alloc_aligned_in_bounds.1 ⟨64, 164, 64, 0⟩ ⟨8, 8⟩ 64 ⟨64, 164, 72, 1⟩
    ⟨3, by omega, rfl⟩ (by decide)

/-- C3: `list_index` computes `required = max(size, align)` and returns
the index of the smallest class ≥ `required`, or none when `required`
exceeds the largest class (2048); consequently every request with size
in `1..=8` and align ≤ 8 maps to the 8-byte class, `(size 2048,
align 1)` maps to the 2048 class, and any request with size 2049 maps
to no class and is forwarded to the fallback allocator. -/
theorem C3_list_index_spec :
    (∀ (lay : Layout) (i : Nat), list_index lay = some i →
      i < BLOCK_SIZES.length ∧
      max lay.size lay.align ≤ BLOCK_SIZES.getD i 0 ∧
      ∀ j, j < i → BLOCK_SIZES.getD j 0 < max lay.size lay.align) ∧
    (∀ lay : Layout, list_index lay = none ↔
      2048 < max lay.size lay.align) ∧
    (∀ size align : Nat, 1 ≤ size → size ≤ 8 → align ≤ 8 →
      list_index ⟨size, align⟩ = some 0) ∧
    BLOCK_SIZES.getD 0 0 = 8 ∧
    list_index ⟨2048, 1⟩ = some 8 ∧ BLOCK_SIZES.getD 8 0 = 2048 ∧
    (∀ (align : Nat) (s : FSBState), list_index ⟨2049, align⟩ = none ∧
      fsb_alloc s ⟨2049, align⟩ =
        ((ll_alloc s.fallback ⟨2049, align⟩).1,
         { s with fallback := (ll_alloc s.fallback ⟨2049, align⟩).2 })) := by
  refine ⟨fun lay i h => list_index_some h, list_index_none_iff,
    ?_, rfl, by decide, rfl, ?_⟩
  · intro size align h1 h2 h3
    unfold list_index
    rw [List.findIdx?_eq_some_iff_getElem]
    refine ⟨by decide, ?_, fun j hj => absurd hj (by omega)⟩
    simp only [decide_eq_true_eq]
    show max size align ≤ 8
    omega
  · intro align s
    have hnone : list_index ⟨2049, align⟩ = none := by
      rw [list_index_none_iff]
      show 2048 < max 2049 align
      omega
    refine ⟨hnone, ?_⟩
    unfold fsb_alloc
    rw [hnone]

/-- Witness for C3: a request of 5 bytes aligned to 4 maps to class
index 0. -/
theorem C3_list_index_spec_witness :
    list_index ⟨5, 4⟩ = some 0 :=
  C3_list_index_spec.2.2.1 5 4 (by omega) (by omega) (by omega)

/-- C4: the size-classed allocator's `alloc`: when a class applies and
its list is non-empty, the head is popped and returned; when the list
is empty, exactly one block of that class's size, aligned to that same
size, is requested from the embedded free-list allocator and returned
directly; when no class applies, the request is delegated unchanged to
the embedded free-list allocator. -/
theorem C4_fsb_alloc_spec (s : FSBState) (lay : Layout) :
    (∀ index, list_index lay = some index →
      (∀ node rest, s.list_heads.getD index [] = node :: rest →
        fsb_alloc s lay =
          (some node,
           { s with list_heads := s.list_heads.set index rest })) ∧
      (s.list_heads.getD index [] = [] →
        fsb_alloc s lay =
          ((ll_alloc s.fallback
              ⟨BLOCK_SIZES.getD index 0, BLOCK_SIZES.getD index 0⟩).1,
           { s with fallback := (ll_alloc s.fallback
              ⟨BLOCK_SIZES.getD index 0, BLOCK_SIZES.getD index 0⟩).2 }))) ∧
    (list_index lay = none →
      fsb_alloc s lay =
        ((ll_alloc s.fallback lay).1,
         { s with fallback := (ll_alloc s.fallback lay).2 })) := by
  constructor
  · intro index hidx
    constructor
    · intro node rest hL
      unfold fsb_alloc
      rw [hidx]
      dsimp only
      rw [hL]
    · intro hL
      unfold fsb_alloc
      rw [hidx]
      dsimp only
      rw [hL]
  · intro hidx
    unfold fsb_alloc
    rw [hidx]

/-- Witness for C4: popping the single parked block 40 from class 0. -/
theorem C4_fsb_alloc_spec_witness :
    fsb_alloc ⟨[[40], [], [], [], [], [], [], [], []], []⟩ ⟨8, 8⟩ =
      (some 40,
       { FSBState.mk [[40], [], [], [], [], [], [], [], []] [] with
          list_heads :=
            ([[40], [], [], [], [], [], [], [], []] :
              List (List Nat)).set 0 [] }) :=
  ((C4_fsb_alloc_spec ⟨[[40], [], [], [], [], [], [], [], []], []⟩
      ⟨8, 8⟩).1 0 (by decide)).1 40 [] (by decide)

end BlogOs
